import Mathlib

/-!
Verification of the ticketlog append-only task store.

This file gives a shallow embedding of the core of `ticketlog`
(`models.py`, `storage.py`, `commands/dep.py`, `commands/ready.py`,
`commands/list.py`, `commands/clean.py`) and proves the properties of its
specification against that embedding.  Machine timestamps are passed as
explicit string parameters, the random source of the id generator is an
explicit oracle, and files are lists of lines.
-/

namespace Ticketlog

/-- One task revision, mirroring the `Task` dataclass in `models.py`.
Timestamps are the ISO strings the program stores. -/
structure Task where
  id : String
  title : String
  created_at : String
  updated_at : String
  description : String := ""
  type : String := "task"
  status : String := "open"
  priority : Int := 2
  assignee : Option String := none
  labels : List String := []
  closed_at : Option String := none
  dependencies : List String := []
  notes : String := ""
deriving DecidableEq, Repr

/-- One line of the JSON-lines log file: blank, or a record holding one
serialized task revision (parsing is not modelled; a record line stands for
the task it decodes to). -/
inductive Line where
  | blank : Line
  | record : Task → Line
deriving DecidableEq, Repr

/-- Association-list update with Python-dict semantics: replace the value in
place if the key is present, otherwise append the new binding at the end. -/
def upsert {α : Type} : List (String × α) → String → α → List (String × α)
  | [], k, v => [(k, v)]
  | (k', v') :: m, k, v =>
    if k = k' then (k', v) :: m else (k', v') :: upsert m k v

/-- Association-list lookup (first binding wins, as in a Python dict where
keys are unique). -/
def alookup {α : Type} : List (String × α) → String → Option α
  | [], _ => none
  | (k', v') :: m, k => if k = k' then some v' else alookup m k

/-- The task records of a file, in order, with blank lines dropped
(the body of the read loop of `Storage.load_tasks` skips blank lines). -/
def records (file : List Line) : List Task :=
  file.filterMap fun l => match l with | Line.blank => none | Line.record t => some t

/-- The fold of `Storage.load_tasks`: `tasks_by_id[task.id] = task` over the
records in file order. -/
def loadPairs (rs : List Task) : List (String × Task) :=
  rs.foldl (fun m t => upsert m t.id t) []

/-- `Storage.load_tasks` on an existing file: the deduplicated task map
together with the `_total_lines` and `_unique_count` counters. -/
def loadAll (file : List Line) : List (String × Task) × Nat × Nat :=
  let m := loadPairs (records file)
  (m, (records file).length, m.length)

/-- `Storage.load_tasks` with the file-existence check of `storage.py`:
a missing file yields no tasks and zero counters. -/
def loadAllFS (file : Option (List Line)) : List (String × Task) × Nat × Nat :=
  match file with
  | none => ([], 0, 0)
  | some lines => loadAll lines

/-- The task list a caller of `load_tasks` receives
(`list(tasks_by_id.values())`). -/
def loadValues (file : List Line) : List Task :=
  (loadAll file).1.map (fun p => p.2)

/-- `Storage.dead_history_ratio`: `(total - unique) / total`, `0.0` for an
empty log.  Python's exact int-to-float division is modelled in `ℚ`. -/
def deadHistoryFrac (total unique : Nat) : ℚ :=
  if total = 0 then 0 else ((total : ℚ) - (unique : ℚ)) / (total : ℚ)

/-- Number of records that repeat the id of an earlier record (`seen` is the
set of ids appearing before the current suffix). -/
def dupCount : List Task → Finset String → Nat
  | [], _ => 0
  | t :: rs, seen =>
    (if t.id ∈ seen then 1 else 0) + dupCount rs (insert t.id seen)

/-- The last record carrying a given id, the survivor under
last-write-wins replay. -/
def findLast (rs : List Task) (k : String) : Option Task :=
  rs.foldl (fun acc t => if k = t.id then some t else acc) none

/-- The keyword arguments a caller may pass to `Task.update_fields`: an
optional new value per updatable attribute, as built by the command layer
(`update.py`, `close.py`, `cancel.py`, `dep.py`, `start.py`).  `closed_at`
itself is never part of a patch. -/
structure Patch where
  title : Option String := none
  description : Option String := none
  type : Option String := none
  status : Option String := none
  priority : Option Int := none
  assignee : Option String := none
  labels : Option (List String) := none
  dependencies : Option (List String) := none
  notes : Option String := none
deriving DecidableEq, Repr

/-- A field of the new revision: the patch value if given, else the old
value (`dataclasses.replace` semantics). -/
def applyField {α : Type} (cur : α) (p : Option α) : α :=
  p.getD cur

/-- `Task.update_fields`: derive a new revision, stamp `updated_at := now`,
and set `closed_at := now` when the patch moves `status` to `closed` while
the current status is not `closed`. -/
def updateFields (t : Task) (p : Patch) (now : String) : Task :=
  { id := t.id
    title := applyField t.title p.title
    created_at := t.created_at
    updated_at := now
    description := applyField t.description p.description
    type := applyField t.type p.type
    status := applyField t.status p.status
    priority := applyField t.priority p.priority
    assignee := match p.assignee with
      | some s => some s
      | none => t.assignee
    labels := applyField t.labels p.labels
    closed_at := if p.status = some "closed" ∧ t.status ≠ "closed"
      then some now else t.closed_at
    dependencies := applyField t.dependencies p.dependencies
    notes := applyField t.notes p.notes }

/-- A sequence of `update_fields` applications, each with its own
timestamp. -/
def foldUpdates (t : Task) : List (Patch × String) → Task
  | [] => t
  | (p, now) :: ps => foldUpdates (updateFields t p now) ps

/-- One call to `Storage.check_dead_history`: given the `_dead_history_warned`
flag and the current ratio, returns whether the advisory is printed to stderr
and the new flag.  Mirrors the early return on the flag and the strict
`ratio > threshold` comparison. -/
def checkStep (warned : Bool) (r θ : ℚ) : Bool × Bool :=
  if warned then (false, warned)
  else if r > θ then (true, true)
  else (false, false)

/-- A whole process: the advisory decisions of successive
`check_dead_history` calls, one ratio per call, threading the
`_dead_history_warned` flag. -/
def runChecks (θ : ℚ) : List ℚ → Bool → List Bool
  | [], _ => []
  | r :: rs, w =>
    (checkStep w r θ).1 :: runChecks θ rs (checkStep w r θ).2

theorem alookup_upsert {α : Type} (m : List (String × α)) (k : String) (v : α)
    (k' : String) :
    alookup (upsert m k v) k' = if k' = k then some v else alookup m k' := by
  induction m with
  | nil => simp [upsert, alookup]
  | cons p m ih =>
    obtain ⟨a, b⟩ := p
    by_cases hka : k = a
    · subst hka
      simp only [upsert, if_pos rfl, alookup]
      by_cases h : k' = k
      · simp [h]
      · simp [h]
    · simp only [upsert, if_neg hka, alookup, ih]
      by_cases h1 : k' = a
      · subst h1
        rw [if_pos rfl, if_neg (fun h => hka h.symm), if_pos rfl]
      · simp [h1]

theorem length_upsert {α : Type} (m : List (String × α)) (k : String) (v : α) :
    (upsert m k v).length =
      if (alookup m k).isSome then m.length else m.length + 1 := by
  induction m with
  | nil => simp [upsert, alookup]
  | cons p m ih =>
    obtain ⟨a, b⟩ := p
    by_cases hka : k = a
    · subst hka
      simp [upsert, alookup]
    · simp only [upsert, if_neg hka, List.length_cons, alookup, ih]
      split_ifs <;> omega

theorem loadPairs_length_aux :
    ∀ (rs : List Task) (m : List (String × Task)) (seen : Finset String),
      (∀ x, (alookup m x).isSome ↔ x ∈ seen) →
      (rs.foldl (fun m t => upsert m t.id t) m).length + dupCount rs seen =
        m.length + rs.length := by
  intro rs
  induction rs with
  | nil => intro m seen _; simp [dupCount]
  | cons t rs ih =>
    intro m seen hseen
    have hkeys : ∀ x, (alookup (upsert m t.id t) x).isSome ↔ x ∈ insert t.id seen := by
      intro x
      rw [alookup_upsert]
      by_cases hx : x = t.id
      · simp [hx]
      · simp [hx, hseen x]
    have h2 := ih (upsert m t.id t) (insert t.id seen) hkeys
    have h3 := length_upsert m t.id t
    simp only [List.foldl_cons, dupCount, List.length_cons]
    by_cases ht : t.id ∈ seen
    · have hs : (alookup m t.id).isSome = true := (hseen t.id).2 ht
      rw [if_pos hs] at h3
      rw [if_pos ht]
      omega
    · have hs : ¬ (alookup m t.id).isSome = true := fun h => ht ((hseen t.id).1 h)
      rw [if_neg hs] at h3
      rw [if_neg ht]
      omega

theorem alookup_foldl_upsert :
    ∀ (rs : List Task) (m : List (String × Task)) (k : String),
      alookup (rs.foldl (fun m t => upsert m t.id t) m) k =
        rs.foldl (fun acc t => if k = t.id then some t else acc) (alookup m k) := by
  intro rs
  induction rs with
  | nil => intro m k; rfl
  | cons t rs ih =>
    intro m k
    simp only [List.foldl_cons]
    rw [ih, alookup_upsert]

theorem loadPairs_length (rs : List Task) :
    (loadPairs rs).length + dupCount rs ∅ = rs.length := by
  have := loadPairs_length_aux rs [] ∅ (by intro x; simp [alookup])
  simpa [loadPairs] using this

/-- C1.  Replaying a log of N non-blank records with `duplicateCount` repeats
of earlier ids yields a map of exactly N - duplicateCount entries whose entry
at each id is the last record with that id, the counters are
`totalLines = N` and `uniqueCount = N - duplicateCount`, and the dead-history
ratio is duplicateCount / N (0 for an empty log). -/
theorem C1_load_replay (file : List Line) :
    (loadAll file).2.1 = (records file).length ∧
    (loadAll file).2.2 = (records file).length - dupCount (records file) ∅ ∧
    (∀ k, alookup (loadAll file).1 k = findLast (records file) k) ∧
    deadHistoryFrac (loadAll file).2.1 (loadAll file).2.2 =
      (if (records file).length = 0 then 0
       else (dupCount (records file) ∅ : ℚ) / ((records file).length : ℚ)) := by
  have hlen := loadPairs_length (records file)
  refine ⟨rfl, ?_, ?_, ?_⟩
  · show (loadPairs (records file)).length = _
    omega
  · intro k
    show alookup (loadPairs (records file)) k = _
    have := alookup_foldl_upsert (records file) [] k
    simpa [loadPairs, findLast, alookup] using this
  · show deadHistoryFrac (records file).length (loadPairs (records file)).length = _
    unfold deadHistoryFrac
    by_cases h0 : (records file).length = 0
    · simp [h0]
    · have hd : (dupCount (records file) ∅ : ℚ) =
          ((records file).length : ℚ) - ((loadPairs (records file)).length : ℚ) := by
        have : ((loadPairs (records file)).length : ℚ) + (dupCount (records file) ∅ : ℚ)
            = ((records file).length : ℚ) := by
          exact_mod_cast hlen
        linarith
      simp only [h0, if_neg h0]
      rw [hd]

/-- C10.  A store whose log file is absent loads without error as the empty
task map with `totalLines = 0` and `uniqueCount = 0`, so its dead-history
ratio is 0. -/
theorem C10_missing_file :
    loadAllFS none = ([], 0, 0) ∧
    deadHistoryFrac (loadAllFS none).2.1 (loadAllFS none).2.2 = 0 := by
  constructor
  · rfl
  · simp [loadAllFS, deadHistoryFrac]

/-- C2 counterexample.  Closing, reopening and closing again overwrites
`closed_at` with the second closing time: after the sequence
close(at "1"), reopen(at "2"), close(at "3"), the task's `closed_at` is
"3", not the "1" stamped by the first close — so `closed_at` is not
invariant under every later update. -/
theorem C2_counterexample :
    (updateFields
        { id := "tl-001", title := "t", created_at := "0", updated_at := "0" }
        { status := some "closed" } "1").closed_at = some "1" ∧
    (foldUpdates
        { id := "tl-001", title := "t", created_at := "0", updated_at := "0" }
        [({ status := some "closed" }, "1"),
         ({ status := some "open" }, "2"),
         ({ status := some "closed" }, "3")]).closed_at = some "3" ∧
    ("3" : String) ≠ "1" := by
  refine ⟨rfl, rfl, by decide⟩

/-- C2 amended.  `closed_at` is stamped with the update time at any update
whose patch sets `status` to `closed` while the current status is not
`closed`; and as long as the task stays closed — every later patch either
leaves `status` alone or sets it to `closed` again — `closed_at` is never
cleared or overwritten.  (Only reopening and re-closing re-stamps it, as the
counterexample shows.) -/
theorem C2_closed_at (t : Task) (p : Patch) (now : String)
    (ps : List (Patch × String)) :
    (p.status = some "closed" → t.status ≠ "closed" →
      (updateFields t p now).closed_at = some now) ∧
    (t.status = "closed" →
      (∀ q ∈ ps, q.1.status = none ∨ q.1.status = some "closed") →
      (foldUpdates t ps).closed_at = t.closed_at) := by
  constructor
  · intro h1 h2
    simp [updateFields, h1, h2]
  · intro hclosed hps
    induction ps generalizing t with
    | nil => rfl
    | cons q ps ih =>
      obtain ⟨p', now'⟩ := q
      have hq := hps (p', now') (List.mem_cons_self _ _)
      simp only at hq
      have hstat : (updateFields t p' now').status = "closed" := by
        rcases hq with h | h <;>
          simp [updateFields, applyField, h, hclosed]
      have hkeep : (updateFields t p' now').closed_at = t.closed_at := by
        have : ¬ (p'.status = some "closed" ∧ t.status ≠ "closed") := by
          intro hcon
          exact hcon.2 hclosed
        simp [updateFields, this]
      calc (foldUpdates (updateFields t p' now') ps).closed_at
          = (updateFields t p' now').closed_at :=
            ih (updateFields t p' now') hstat
              (fun q hu => hps q (List.mem_cons_of_mem _ hu))
        _ = t.closed_at := hkeep

/-- The candidate alphabet of `Storage._generate_random_id`:
`string.ascii_lowercase + string.digits`. -/
def alphabet : List Char := "abcdefghijklmnopqrstuvwxyz0123456789".toList

/-- One character drawn from the alphabet by the random source. -/
def drawChar (d : Fin 36) : Char :=
  alphabet.get (Fin.cast (show (36 : Nat) = alphabet.length from rfl) d)

/-- The 3-character suffix of one attempt: `random.choices(chars, k=3)`,
with the random source an explicit oracle giving each attempt's three
alphabet indices. -/
def suffixOf (draws : Nat → Fin 3 → Fin 36) (n : Nat) : String :=
  String.mk [drawChar (draws n 0), drawChar (draws n 1), drawChar (draws n 2)]

/-- The candidate id of attempt `n`. -/
def candidate (pfx : String) (draws : Nat → Fin 3 → Fin 36) (n : Nat) : String :=
  pfx ++ "-" ++ suffixOf draws n

/-- The retry loop of `Storage._generate_random_id`: try candidates until
one misses `existing`, give up when the fuel (10 at the top call) runs
out. -/
def genLoop (pfx : String) (existing : List String)
    (draws : Nat → Fin 3 → Fin 36) : Nat → Nat → Except String String
  | 0, _ => Except.error "exhausted"
  | fuel + 1, attempt =>
    if candidate pfx draws attempt ∈ existing then
      genLoop pfx existing draws fuel (attempt + 1)
    else Except.ok (candidate pfx draws attempt)

/-- `Storage._generate_random_id`: up to 10 attempts. -/
def generateRandomId (pfx : String) (existing : List String)
    (draws : Nat → Fin 3 → Fin 36) : Except String String :=
  genLoop pfx existing draws 10 0

/-- Python's lexicographic string comparison (`a <= b` on code points),
on the character lists of the two strings. -/
def strLeB : List Char → List Char → Bool
  | [], _ => true
  | _ :: _, [] => false
  | a :: as, b :: bs =>
    if a.toNat < b.toNat then true
    else if a.toNat = b.toNat then strLeB as bs
    else false

/-- The sort key comparison of `list.py` / `ready.py`:
`key=lambda t: (t.priority, t.id)` — ascending priority, ties broken by
ascending lexical id. -/
def keyLe (t u : Task) : Prop :=
  t.priority < u.priority ∨
    (t.priority = u.priority ∧ strLeB t.id.data u.id.data = true)

instance keyLe.decRel : DecidableRel keyLe := fun t u =>
  inferInstanceAs (Decidable (_ ∨ _))

/-- `tasks.sort(key=lambda t: (t.priority, t.id))`, shared by the list and
ready views (a stable sort, as Python's). -/
def sortTasks (ts : List Task) : List Task :=
  List.insertionSort keyLe ts

/-- The ids of the closed tasks of the collection
(`closed_ids` in `ready.py`). -/
def closedIds (ts : List Task) : List String :=
  (ts.filter fun t => decide (t.status = "closed")).map (fun t => t.id)

/-- The ready condition of `ready.py`: status `open` and every dependency id
in the closed-id set. -/
def isReady (ts : List Task) (t : Task) : Bool :=
  decide (t.status = "open" ∧ ∀ d ∈ t.dependencies, d ∈ closedIds ts)

/-- `ready_tasks`: filter for ready tasks, then sort. -/
def readyTasks (ts : List Task) : List Task :=
  sortTasks (ts.filter (isReady ts))

/-- The id-only comparison of `clean.py`'s `sorted(tasks, key=lambda t: t.id)`. -/
def idLe (t u : Task) : Prop :=
  strLeB t.id.data u.id.data = true

instance idLe.decRel : DecidableRel idLe := fun t u =>
  inferInstanceAs (Decidable (_ = true))

/-- `sorted(tasks, key=lambda t: t.id)` in `clean_log`. -/
def sortById (ts : List Task) : List Task :=
  List.insertionSort idLe ts

/-- `removed_lines` of `clean_log`: non-blank line count minus deduplicated
task count. -/
def removedOf (file : List Line) : Nat :=
  (records file).length - (loadValues file).length

/-- The fallible file operations of `clean_log`'s try block, in program
order: one write per task record, then flush, fsync, and the atomic
rename. -/
inductive Op where
  | writeRec : Task → Op
  | flush : Op
  | fsync : Op
  | rename : Op
deriving DecidableEq, Repr

/-- On-disk state during compaction: the log file and the temporary file
(its task records), `none` when no temp file exists. -/
structure FS where
  log : List Line
  temp : Option (List Task)
deriving DecidableEq, Repr

/-- Effect of one operation: writes append to the temp file, flush and fsync
change nothing, rename moves the temp content over the log. -/
def applyOp (st : FS) (op : Op) : FS :=
  match op with
  | Op.writeRec t => { st with temp := st.temp.map (fun c => c ++ [t]) }
  | Op.flush => st
  | Op.fsync => st
  | Op.rename =>
    match st.temp with
    | some c => { log := c.map Line.record, temp := none }
    | none => st

/-- Run the operations with a failure oracle: `some k` raises an exception
just before the k-th operation (counting from 0), `none` lets every
operation succeed.  Returns the state and whether an exception was
raised. -/
def runOps : FS → List Op → Option Nat → FS × Bool
  | st, [], _ => (st, false)
  | st, _ :: _, some 0 => (st, true)
  | st, op :: ops, some (k + 1) => runOps (applyOp st op) ops (some k)
  | st, op :: ops, none => runOps (applyOp st op) ops none

/-- The operation sequence of `clean_log`'s rewrite: all live tasks sorted
by id, then flush, fsync, rename. -/
def cleanOps (file : List Line) : List Op :=
  (sortById (loadValues file)).map Op.writeRec ++ [Op.flush, Op.fsync, Op.rename]

/-- `clean_log`: early return when there are no tasks or no duplicate
lines; otherwise create a temp file, run the write/flush/fsync/rename
sequence, and on an exception unlink the temp file and re-raise. -/
def cleanLog (file : List Line) (failAt : Option Nat) : FS × Bool :=
  if (loadValues file).isEmpty then ({ log := file, temp := none }, false)
  else if removedOf file = 0 then ({ log := file, temp := none }, false)
  else if (runOps { log := file, temp := some [] } (cleanOps file) failAt).2 then
    ({ (runOps { log := file, temp := some [] } (cleanOps file) failAt).1 with
        temp := none }, true)
  else runOps { log := file, temp := some [] } (cleanOps file) failAt

/-- The dependency adjacency built by `detect_cycle`:
`deps = {t.id: set(t.dependencies) for t in all_tasks}` (the set is kept as
the dependency list; only membership matters to the search). -/
def depsOf (tasks : List Task) : List (String × List String) :=
  tasks.foldl (fun m t => upsert m t.id t.dependencies) []

/-- Adding the candidate edge: ensure `a` has an adjacency entry, then add
`b` to it (a no-op when already present, as for a Python set). -/
def addEdge (deps : List (String × List String)) (a b : String) :
    List (String × List String) :=
  match alookup deps a with
  | some l => if b ∈ l then deps else upsert deps a (l ++ [b])
  | none => upsert deps a [b]

/-- `deps.get(node, [])`. -/
def neighborsOf (deps : List (String × List String)) (v : String) : List String :=
  (alookup deps v).getD []

/-- One dependency edge: `x` depends on `y`. -/
def depStep (deps : List (String × List String)) (x y : String) : Prop :=
  y ∈ neighborsOf deps x

/-- The `for neighbor in deps.get(node, [])` loop of `has_cycle`: `f` is the
recursive call (receiving the current visited set and the stack including
the current node), `stk1` that stack; threads the visited set left to
right and stops at the first cycle found. -/
def visitList (f : String → Finset String → Finset String → Bool × Finset String)
    (stk1 : Finset String) : List String → Finset String → Bool × Finset String
  | [], vis => (false, vis)
  | n :: ns, vis =>
    if n ∈ vis then
      if n ∈ stk1 then (true, vis) else visitList f stk1 ns vis
    else
      match f n vis stk1 with
      | (true, vis2) => (true, vis2)
      | (false, vis2) => visitList f stk1 ns vis2

/-- `has_cycle(node)` of `detect_cycle`: mark the node visited, push it on
the recursion stack, scan its neighbors; the stack entry is dropped on
return (the caller's stack is unchanged).  The fuel argument only bounds the
recursion depth; `detect_cycle` passes more fuel than the search can
consume. -/
def visit (deps : List (String × List String)) :
    Nat → String → Finset String → Finset String → Bool × Finset String
  | 0, _, vis, _ => (true, vis)
  | fuel + 1, node, vis, stk =>
    visitList (visit deps fuel) (insert node stk) (neighborsOf deps node)
      (insert node vis)

/-- Every node the search can ever touch: the start node, the adjacency
keys, and every edge target. -/
def nodesOf (deps : List (String × List String)) (root : String) : Finset String :=
  insert root
    (deps.foldr (fun p acc => insert p.1 (p.2.foldr insert acc)) ∅)

/-- `detect_cycle(task_id, depends_on, all_tasks)`: build the graph, add the
candidate edge, and run the depth-first search from `task_id` with fresh
visited and stack sets. -/
def detectCycle (a b : String) (tasks : List Task) : Bool :=
  (visit (addEdge (depsOf tasks) a b)
    ((nodesOf (addEdge (depsOf tasks) a b) a).card + 1) a ∅ ∅).1

/-- DFS invariant: every finished (visited, off-stack) node has all its
successors finished. -/
def closedBlack (deps : List (String × List String)) (V S : Finset String) : Prop :=
  ∀ v ∈ V \ S, ∀ w, depStep deps v w → w ∈ V \ S

/-- DFS invariant: no finished node lies on a cycle. -/
def noBlackCycle (deps : List (String × List String)) (V S : Finset String) : Prop :=
  ∀ v ∈ V \ S, ¬ Relation.TransGen (depStep deps) v v

/-- Full specification of one `has_cycle` call with enough fuel: the
visited set grows and stays inside the universe; a `true` result exhibits a
cycle reachable from the node; a `false` result finishes the node with the
black-node invariants intact. -/
def visitSpec (deps : List (String × List String)) (U : Finset String)
    (fuel : Nat) : Prop :=
  ∀ (n : String) (vis stk : Finset String),
    n ∈ U → n ∉ vis → vis ⊆ U → stk ⊆ vis →
    (∀ s ∈ stk, Relation.ReflTransGen (depStep deps) s n) →
    closedBlack deps vis stk → noBlackCycle deps vis stk →
    (U \ vis).card < fuel →
    insert n vis ⊆ (visit deps fuel n vis stk).2 ∧
    (visit deps fuel n vis stk).2 ⊆ U ∧
    ((visit deps fuel n vis stk).1 = true →
      ∃ w, Relation.ReflTransGen (depStep deps) n w ∧
        Relation.TransGen (depStep deps) w w) ∧
    ((visit deps fuel n vis stk).1 = false →
      closedBlack deps (visit deps fuel n vis stk).2 stk ∧
      noBlackCycle deps (visit deps fuel n vis stk).2 stk ∧
      n ∈ (visit deps fuel n vis stk).2 \ stk)

/-- A task fixture with just an id and dependency list, for concrete
instances. -/
def mkTask (i : String) (ds : List String) : Task :=
  { id := i, title := "t", created_at := "0", updated_at := "0",
    dependencies := ds }

theorem runChecks_length (θ : ℚ) (rs : List ℚ) (w : Bool) :
    (runChecks θ rs w).length = rs.length := by
  induction rs generalizing w with
  | nil => rfl
  | cons r rs ih => simp [runChecks, ih]

theorem runChecks_warned_all_false (θ : ℚ) (rs : List ℚ) :
    ∀ x ∈ runChecks θ rs true, x = false := by
  induction rs with
  | nil => simp [runChecks]
  | cons r rs ih =>
    intro x hx
    simp only [runChecks, checkStep, if_pos] at hx
    rcases List.mem_cons.1 hx with h | h
    · exact h
    · exact ih x h

theorem getD_false_of_all (l : List Bool) (h : ∀ x ∈ l, x = false) (j : Nat) :
    l.getD j false = false := by
  induction l generalizing j with
  | nil => simp
  | cons a l ih =>
    cases j with
    | zero => simpa using h a (by simp)
    | succ j => simpa using ih (fun x hx => h x (by simp [hx])) j

theorem runChecks_cons_pos (θ r : ℚ) (rs : List ℚ) (hr : r > θ) :
    runChecks θ (r :: rs) false = true :: runChecks θ rs true := by
  simp [runChecks, checkStep, hr]

theorem runChecks_cons_neg (θ r : ℚ) (rs : List ℚ) (hr : ¬ r > θ) :
    runChecks θ (r :: rs) false = false :: runChecks θ rs false := by
  simp [runChecks, checkStep, hr]

theorem runChecks_count (θ : ℚ) (rs : List ℚ) :
    (runChecks θ rs false).count true ≤ 1 := by
  induction rs with
  | nil => simp [runChecks]
  | cons r rs ih =>
    by_cases hr : r > θ
    · rw [runChecks_cons_pos θ r rs hr]
      have hz : (runChecks θ rs true).count true = 0 := by
        rw [List.count_eq_zero]
        intro hmem
        have := runChecks_warned_all_false θ rs true hmem
        simp at this
      simp [List.count_cons, hz]
    · rw [runChecks_cons_neg θ r rs hr]
      simpa [List.count_cons] using ih

theorem runChecks_emit_gt (θ : ℚ) :
    ∀ (rs : List ℚ) (i : Nat), i < rs.length →
      (runChecks θ rs false).getD i false = true → rs.getD i 0 > θ := by
  intro rs
  induction rs with
  | nil => intro i hi; simp at hi
  | cons r rs ih =>
    intro i hi hE
    by_cases hr : r > θ
    · cases i with
      | zero => simpa using hr
      | succ i =>
        rw [runChecks_cons_pos θ r rs hr, List.getD_cons_succ] at hE
        have := getD_false_of_all _ (runChecks_warned_all_false θ rs) i
        rw [this] at hE
        exact absurd hE (by simp)
    · cases i with
      | zero =>
        rw [runChecks_cons_neg θ r rs hr, List.getD_cons_zero] at hE
        exact absurd hE (by simp)
      | succ i =>
        rw [runChecks_cons_neg θ r rs hr, List.getD_cons_succ] at hE
        rw [List.getD_cons_succ]
        exact ih i (by simpa using hi) hE

theorem runChecks_once (θ : ℚ) :
    ∀ (rs : List ℚ) (i j : Nat), i < j → j < rs.length →
      (runChecks θ rs false).getD i false = true →
      (runChecks θ rs false).getD j false = false := by
  intro rs
  induction rs with
  | nil => intro i j _ hj; simp at hj
  | cons r rs ih =>
    intro i j hij hj hE
    by_cases hr : r > θ
    · rw [runChecks_cons_pos θ r rs hr]
      cases j with
      | zero => omega
      | succ j =>
        rw [List.getD_cons_succ]
        exact getD_false_of_all _ (runChecks_warned_all_false θ rs) j
    · rw [runChecks_cons_neg θ r rs hr] at hE ⊢
      cases i with
      | zero =>
        rw [List.getD_cons_zero] at hE
        exact absurd hE (by simp)
      | succ i =>
        cases j with
        | zero => omega
        | succ j =>
          rw [List.getD_cons_succ] at hE ⊢
          exact ih i j (by omega) (by simpa using hj) hE

/-- C7.  Across any sequence of `check_dead_history` calls of one process
(one ratio per call, flag initially unset), the advisory is emitted at most
once; an emission happens only when the ratio strictly exceeds the
threshold (equality never emits); and once emitted, no later call emits
again. -/
theorem C7_dead_history_warning (θ : ℚ) (rs : List ℚ) :
    (runChecks θ rs false).length = rs.length ∧
    (runChecks θ rs false).count true ≤ 1 ∧
    (∀ i, i < rs.length → (runChecks θ rs false).getD i false = true →
      rs.getD i 0 > θ) ∧
    (∀ i j, i < j → j < rs.length →
      (runChecks θ rs false).getD i false = true →
      (runChecks θ rs false).getD j false = false) :=
  ⟨runChecks_length θ rs false, runChecks_count θ rs,
    fun i hi hE => runChecks_emit_gt θ rs i hi hE,
    fun i j hij hj hE => runChecks_once θ rs i j hij hj hE⟩

/-- C7 witness: with threshold 0 and ratios [0, 1, 2] the first call (ratio
equal to the threshold) does not emit, the second emits, and the third —
although its ratio exceeds the threshold — stays silent. -/
theorem C7_dead_history_warning_witness :
    ((0 : ℚ) < 1) ∧
    (runChecks 0 [0, 1, 2] false).getD 1 false = true ∧
    (runChecks 0 [0, 1, 2] false).getD 2 false = false :=
  ⟨by norm_num, by decide,
    (C7_dead_history_warning 0 [0, 1, 2]).2.2.2 1 2 (by omega) (by decide)
      (by decide)⟩

theorem genLoop_spec (pfx : String) (existing : List String)
    (draws : Nat → Fin 3 → Fin 36) :
    ∀ (fuel start : Nat),
      (∃ n, start ≤ n ∧ n < start + fuel ∧
        genLoop pfx existing draws fuel start =
          Except.ok (candidate pfx draws n) ∧
        candidate pfx draws n ∉ existing ∧
        ∀ m, start ≤ m → m < n → candidate pfx draws m ∈ existing) ∨
      (genLoop pfx existing draws fuel start = Except.error "exhausted" ∧
        ∀ m, start ≤ m → m < start + fuel → candidate pfx draws m ∈ existing) := by
  intro fuel
  induction fuel with
  | zero =>
    intro start
    right
    exact ⟨rfl, fun m h1 h2 => absurd h2 (by omega)⟩
  | succ fuel ih =>
    intro start
    by_cases hc : candidate pfx draws start ∈ existing
    · have hstep : genLoop pfx existing draws (fuel + 1) start =
          genLoop pfx existing draws fuel (start + 1) := by
        simp [genLoop, hc]
      rcases ih (start + 1) with ⟨n, h1, h2, heq, hnot, hall⟩ | ⟨heq, hall⟩
      · left
        refine ⟨n, by omega, by omega, hstep ▸ heq, hnot, ?_⟩
        intro m hm1 hm2
        rcases Nat.eq_or_lt_of_le hm1 with h | h
        · exact h ▸ hc
        · exact hall m (by omega) hm2
      · right
        refine ⟨hstep ▸ heq, ?_⟩
        intro m hm1 hm2
        rcases Nat.eq_or_lt_of_le hm1 with h | h
        · exact h ▸ hc
        · exact hall m (by omega) (by omega)
    · left
      refine ⟨start, Nat.le_refl _, by omega, ?_, hc, fun m h1 h2 => absurd h2 (by omega)⟩
      simp [genLoop, hc]

/-- C8.  The generator either returns `prefix ++ "-" ++ s` with `s` exactly
three characters of the 36-symbol lowercase-alphanumeric alphabet and the
result not in the existing-id set, or every one of the 10 candidate attempts
collides with the existing-id set and it fails with the exhaustion error,
returning no id. -/
theorem C8_id_generation (pfx : String) (existing : List String)
    (draws : Nat → Fin 3 → Fin 36) :
    (∀ n, candidate pfx draws n =
        pfx ++ "-" ++
          String.mk [drawChar (draws n 0), drawChar (draws n 1), drawChar (draws n 2)] ∧
      ∀ i : Fin 3, drawChar (draws n i) ∈ alphabet) ∧
    ((∃ n, n < 10 ∧
        generateRandomId pfx existing draws = Except.ok (candidate pfx draws n) ∧
        candidate pfx draws n ∉ existing ∧
        ∀ m, m < n → candidate pfx draws m ∈ existing) ∨
      (generateRandomId pfx existing draws = Except.error "exhausted" ∧
        ∀ m, m < 10 → candidate pfx draws m ∈ existing)) := by
  constructor
  · intro n
    exact ⟨rfl, fun i => List.get_mem alphabet _ _⟩
  · rcases genLoop_spec pfx existing draws 10 0 with
      ⟨n, _, h2, heq, hnot, hall⟩ | ⟨heq, hall⟩
    · exact Or.inl ⟨n, by omega, heq, hnot, fun m hm => hall m (Nat.zero_le m) hm⟩
    · exact Or.inr ⟨heq, fun m hm => hall m (Nat.zero_le m) (by omega)⟩

/-- C8 witness: with an all-zero oracle and no existing ids the generator
succeeds on the first attempt and does not exhaust. -/
theorem C8_id_generation_witness :
    generateRandomId "tl" [] (fun _ _ => 0) ≠ Except.error "exhausted" := by
  rcases (C8_id_generation "tl" [] (fun _ _ => 0)).2 with
    ⟨n, _, heq, _, _⟩ | ⟨_, hall⟩
  · rw [heq]
    simp
  · exact absurd (hall 0 (by omega)) (by simp)

theorem alookup_mem {α : Type} :
    ∀ (m : List (String × α)) (k : String) (v : α),
      alookup m k = some v → (k, v) ∈ m := by
  intro m
  induction m with
  | nil => intro k v h; simp [alookup] at h
  | cons q m ih =>
    intro k v h
    obtain ⟨a, b⟩ := q
    by_cases hk : k = a
    · rw [alookup, if_pos hk] at h
      subst hk
      have hbv : b = v := Option.some.inj h
      subst hbv
      exact List.mem_cons_self _ _
    · rw [alookup, if_neg hk] at h
      exact List.mem_cons_of_mem _ (ih k v h)

theorem mem_foldr_insert_acc :
    ∀ (l : List String) (acc : Finset String) (x : String),
      x ∈ acc → x ∈ l.foldr insert acc := by
  intro l
  induction l with
  | nil => intro acc x h; exact h
  | cons y l ih => intro acc x h; exact Finset.mem_insert_of_mem (ih acc x h)

theorem mem_foldr_insert_self :
    ∀ (l : List String) (acc : Finset String) (x : String),
      x ∈ l → x ∈ l.foldr insert acc := by
  intro l
  induction l with
  | nil => intro acc x h; simp at h
  | cons y l ih =>
    intro acc x h
    rcases List.mem_cons.1 h with h | h
    · rw [h]; exact Finset.mem_insert_self _ _
    · exact Finset.mem_insert_of_mem (ih acc x h)

theorem mem_nodes_of_entry :
    ∀ (deps : List (String × List String)) (acc : Finset String)
      (p : String × List String), p ∈ deps →
      p.1 ∈ deps.foldr (fun p acc => insert p.1 (p.2.foldr insert acc)) acc ∧
        ∀ y ∈ p.2,
          y ∈ deps.foldr (fun p acc => insert p.1 (p.2.foldr insert acc)) acc := by
  intro deps
  induction deps with
  | nil => intro acc p hp; simp at hp
  | cons q deps ih =>
    intro acc p hp
    rcases List.mem_cons.1 hp with h | h
    · subst h
      constructor
      · exact Finset.mem_insert_self _ _
      · intro y hy
        exact Finset.mem_insert_of_mem (mem_foldr_insert_self _ _ _ hy)
    · have h2 := ih acc p h
      constructor
      · exact Finset.mem_insert_of_mem (mem_foldr_insert_acc _ _ _ h2.1)
      · intro y hy
        exact Finset.mem_insert_of_mem (mem_foldr_insert_acc _ _ _ (h2.2 y hy))

theorem depStep_mem_nodesOf (deps : List (String × List String)) (root : String) :
    ∀ x y, depStep deps x y → y ∈ nodesOf deps root := by
  intro x y h
  unfold depStep neighborsOf at h
  cases halook : alookup deps x with
  | none => rw [halook] at h; simp at h
  | some l =>
    rw [halook] at h
    simp only [Option.getD_some] at h
    have hmem := alookup_mem deps x l halook
    have hy := (mem_nodes_of_entry deps ∅ (x, l) hmem).2 y h
    exact Finset.mem_insert_of_mem hy

theorem root_mem_nodesOf (deps : List (String × List String)) (root : String) :
    root ∈ nodesOf deps root :=
  Finset.mem_insert_self _ _

theorem sdiff_insert_insert (V S : Finset String) (n : String) (hn : n ∉ V) :
    insert n V \ insert n S = V \ S := by
  ext x
  simp only [Finset.mem_sdiff, Finset.mem_insert]
  constructor
  · rintro ⟨h1, h2⟩
    rcases h1 with rfl | h1
    · exact absurd (Or.inl rfl) h2
    · refine ⟨h1, fun hs => h2 (Or.inr hs)⟩
  · rintro ⟨h1, h2⟩
    refine ⟨Or.inr h1, ?_⟩
    rintro (rfl | hs)
    · exact hn h1
    · exact h2 hs

theorem mem_sdiff_split (v' stk : Finset String) (n : String)
    (hn : n ∈ v') (hns : n ∉ stk) :
    ∀ x, x ∈ v' \ stk ↔ x ∈ v' \ insert n stk ∨ x = n := by
  intro x
  simp only [Finset.mem_sdiff, Finset.mem_insert]
  constructor
  · rintro ⟨h1, h2⟩
    by_cases hx : x = n
    · exact Or.inr hx
    · refine Or.inl ⟨h1, ?_⟩
      rintro (h | h)
      · exact hx h
      · exact h2 h
  · rintro (⟨h1, h2⟩ | rfl)
    · exact ⟨h1, fun hs => h2 (Or.inr hs)⟩
    · exact ⟨hn, hns⟩

theorem reach_black (deps : List (String × List String)) (V S : Finset String)
    (hC : closedBlack deps V S) :
    ∀ x y, Relation.ReflTransGen (depStep deps) x y → x ∈ V \ S → y ∈ V \ S := by
  intro x y h
  induction h with
  | refl => exact id
  | tail h1 h2 ih => intro hx; exact hC _ (ih hx) _ h2

theorem card_sdiff_insert (U vis : Finset String) (n : String)
    (hn1 : n ∈ U) (hn2 : n ∉ vis) :
    (U \ insert n vis).card < (U \ vis).card := by
  have h1 : U \ insert n vis = (U \ vis).erase n := by
    ext x
    simp only [Finset.mem_sdiff, Finset.mem_insert, Finset.mem_erase]
    constructor
    · rintro ⟨hx1, hx2⟩
      exact ⟨fun e => hx2 (Or.inl e), hx1, fun hv => hx2 (Or.inr hv)⟩
    · rintro ⟨hx1, hx2, hx3⟩
      refine ⟨hx2, ?_⟩
      rintro (e | hv)
      · exact hx1 e
      · exact hx3 hv
  have h2 : n ∈ U \ vis := Finset.mem_sdiff.2 ⟨hn1, hn2⟩
  rw [h1, Finset.card_erase_of_mem h2]
  have h3 := Finset.card_pos.2 ⟨n, h2⟩
  omega

theorem visitList_spec
    (deps : List (String × List String)) (U : Finset String)
    (hU : ∀ x y, depStep deps x y → y ∈ U)
    (fuel : Nat) (ihv : visitSpec deps U fuel)
    (node : String) (stk1 : Finset String)
    (hstk_reach : ∀ s ∈ stk1, Relation.ReflTransGen (depStep deps) s node) :
    ∀ (l : List String) (vis : Finset String),
      (∀ n ∈ l, depStep deps node n) →
      vis ⊆ U → stk1 ⊆ vis →
      closedBlack deps vis stk1 → noBlackCycle deps vis stk1 →
      (U \ vis).card < fuel →
      vis ⊆ (visitList (visit deps fuel) stk1 l vis).2 ∧
      (visitList (visit deps fuel) stk1 l vis).2 ⊆ U ∧
      ((visitList (visit deps fuel) stk1 l vis).1 = true →
        ∃ w, Relation.ReflTransGen (depStep deps) node w ∧
          Relation.TransGen (depStep deps) w w) ∧
      ((visitList (visit deps fuel) stk1 l vis).1 = false →
        closedBlack deps (visitList (visit deps fuel) stk1 l vis).2 stk1 ∧
        noBlackCycle deps (visitList (visit deps fuel) stk1 l vis).2 stk1 ∧
        ∀ n ∈ l, n ∈ (visitList (visit deps fuel) stk1 l vis).2 \ stk1) := by
  intro l
  induction l with
  | nil =>
    intro vis hl hvU hsv hcb hnb hcard
    refine ⟨Finset.Subset.refl _, hvU, ?_, ?_⟩
    · intro h
      exact absurd h (by simp [visitList])
    · intro _
      exact ⟨hcb, hnb, fun n hn => absurd hn (List.not_mem_nil n)⟩
  | cons n ns ih =>
    intro vis hl hvU hsv hcb hnb hcard
    have hstep_n : depStep deps node n := hl n (List.mem_cons_self _ _)
    have hl' : ∀ m ∈ ns, depStep deps node m :=
      fun m hm => hl m (List.mem_cons_of_mem _ hm)
    by_cases hnv : n ∈ vis
    · by_cases hns : n ∈ stk1
      · have heq : visitList (visit deps fuel) stk1 (n :: ns) vis = (true, vis) := by
          simp [visitList, hnv, hns]
        rw [heq]
        refine ⟨Finset.Subset.refl _, hvU, ?_, ?_⟩
        · intro _
          exact ⟨n, Relation.ReflTransGen.single hstep_n,
            Relation.TransGen.tail' (hstk_reach n hns) hstep_n⟩
        · intro h
          exact absurd h (by simp)
      · have heq : visitList (visit deps fuel) stk1 (n :: ns) vis
            = visitList (visit deps fuel) stk1 ns vis := by
          simp [visitList, hnv, hns]
        rw [heq]
        have hres := ih vis hl' hvU hsv hcb hnb hcard
        refine ⟨hres.1, hres.2.1, hres.2.2.1, ?_⟩
        intro hfalse
        obtain ⟨hc, hn2, hmem⟩ := hres.2.2.2 hfalse
        refine ⟨hc, hn2, ?_⟩
        intro m hm
        rcases List.mem_cons.1 hm with rfl | hm
        · exact Finset.mem_sdiff.2 ⟨hres.1 hnv, hns⟩
        · exact hmem m hm
    · have hnU : n ∈ U := hU node n hstep_n
      have hreach_n : ∀ s ∈ stk1, Relation.ReflTransGen (depStep deps) s n :=
        fun s hs => Relation.ReflTransGen.tail (hstk_reach s hs) hstep_n
      have hv := ihv n vis stk1 hnU hnv hvU hsv hreach_n hcb hnb hcard
      rcases hp : visit deps fuel n vis stk1 with ⟨b, v2⟩
      rw [hp] at hv
      have hlist : visitList (visit deps fuel) stk1 (n :: ns) vis
          = match (b, v2) with
            | (true, vis2) => (true, vis2)
            | (false, vis2) => visitList (visit deps fuel) stk1 ns vis2 := by
        simp only [visitList, if_neg hnv, hp]
      cases b with
      | true =>
        have heq : visitList (visit deps fuel) stk1 (n :: ns) vis = (true, v2) := hlist
        rw [heq]
        have hmono : insert n vis ⊆ v2 := hv.1
        refine ⟨Finset.Subset.trans (Finset.subset_insert _ _) hmono, hv.2.1, ?_, ?_⟩
        · intro _
          obtain ⟨w, hw1, hw2⟩ := hv.2.2.1 rfl
          exact ⟨w, Relation.ReflTransGen.trans
            (Relation.ReflTransGen.single hstep_n) hw1, hw2⟩
        · intro h
          exact absurd h (by simp)
      | false =>
        have heq : visitList (visit deps fuel) stk1 (n :: ns) vis
            = visitList (visit deps fuel) stk1 ns v2 := hlist
        rw [heq]
        obtain ⟨hcb2, hnb2, hmem2⟩ := hv.2.2.2 rfl
        have hmono : insert n vis ⊆ v2 := hv.1
        have hv2U : v2 ⊆ U := hv.2.1
        have hvisv2 : vis ⊆ v2 :=
          Finset.Subset.trans (Finset.subset_insert _ _) hmono
        have hcard2 : (U \ v2).card < fuel :=
          lt_of_le_of_lt
            (Finset.card_le_card
              (Finset.sdiff_subset_sdiff (Finset.Subset.refl U) hvisv2)) hcard
        have hres := ih v2 hl' hv2U (Finset.Subset.trans hsv hvisv2) hcb2 hnb2 hcard2
        refine ⟨Finset.Subset.trans hvisv2 hres.1, hres.2.1, hres.2.2.1, ?_⟩
        intro hfalse
        obtain ⟨hc, hn2, hmem⟩ := hres.2.2.2 hfalse
        refine ⟨hc, hn2, ?_⟩
        intro m hm
        rcases List.mem_cons.1 hm with rfl | hm
        · exact Finset.mem_sdiff.2
            ⟨hres.1 (Finset.mem_sdiff.1 hmem2).1, (Finset.mem_sdiff.1 hmem2).2⟩
        · exact hmem m hm

theorem visit_spec (deps : List (String × List String)) (U : Finset String)
    (hU : ∀ x y, depStep deps x y → y ∈ U) :
    ∀ fuel, visitSpec deps U fuel := by
  intro fuel
  induction fuel with
  | zero =>
    intro n vis stk _ _ _ _ _ _ _ hcard
    exact absurd hcard (by omega)
  | succ fuel ih =>
    intro n vis stk hnU hnv hvU hsv hreach hcb hnb hcard
    have hvis1U : insert n vis ⊆ U := Finset.insert_subset_iff.mpr ⟨hnU, hvU⟩
    have hstk1v : insert n stk ⊆ insert n vis := Finset.insert_subset_insert _ hsv
    have hbl : insert n vis \ insert n stk = vis \ stk :=
      sdiff_insert_insert vis stk n hnv
    have hcb1 : closedBlack deps (insert n vis) (insert n stk) := by
      unfold closedBlack
      rw [hbl]
      exact hcb
    have hnb1 : noBlackCycle deps (insert n vis) (insert n stk) := by
      unfold noBlackCycle
      rw [hbl]
      exact hnb
    have hcard1 : (U \ insert n vis).card < fuel := by
      have := card_sdiff_insert U vis n hnU hnv
      omega
    have hreach1 : ∀ s ∈ insert n stk, Relation.ReflTransGen (depStep deps) s n := by
      intro s hs
      rcases Finset.mem_insert.1 hs with rfl | hs
      · exact Relation.ReflTransGen.refl
      · exact hreach s hs
    have hres := visitList_spec deps U hU fuel ih n (insert n stk) hreach1
      (neighborsOf deps n) (insert n vis) (fun m hm => hm) hvis1U hstk1v hcb1 hnb1
      hcard1
    have hveq : visit deps (fuel + 1) n vis stk
        = visitList (visit deps fuel) (insert n stk) (neighborsOf deps n)
            (insert n vis) := rfl
    rw [hveq]
    rcases hq : visitList (visit deps fuel) (insert n stk) (neighborsOf deps n)
        (insert n vis) with ⟨b', v'⟩
    rw [hq] at hres
    refine ⟨hres.1, hres.2.1, hres.2.2.1, ?_⟩
    intro hfalse
    obtain ⟨hc, hnc, hmem⟩ := hres.2.2.2 hfalse
    have hnv' : n ∈ v' := hres.1 (Finset.mem_insert_self _ _)
    have hnstk : n ∉ stk := fun h => hnv (hsv h)
    have hsplit := mem_sdiff_split v' stk n hnv' hnstk
    refine ⟨?_, ?_, Finset.mem_sdiff.2 ⟨hnv', hnstk⟩⟩
    · intro v hv w hw
      rcases (hsplit v).1 hv with hvb | rfl
      · exact (hsplit w).2 (Or.inl (hc v hvb w hw))
      · exact (hsplit w).2 (Or.inl (hmem w hw))
    · intro v hv hcyc
      rcases (hsplit v).1 hv with hvb | rfl
      · exact hnc v hvb hcyc
      · rcases Relation.TransGen.head'_iff.1 hcyc with ⟨w, hw1, hw2⟩
        have hwb : w ∈ v' \ insert v stk := hmem w hw1
        have hvb2 := reach_black deps v' (insert v stk) hc w v hw2 hwb
        exact (Finset.mem_sdiff.1 hvb2).2 (Finset.mem_insert_self _ _)

theorem detectCycle_iff_cycle (a b : String) (tasks : List Task) :
    detectCycle a b tasks = true ↔
      ∃ w, Relation.ReflTransGen (depStep (addEdge (depsOf tasks) a b)) a w ∧
        Relation.TransGen (depStep (addEdge (depsOf tasks) a b)) w w := by
  have hU : ∀ x y, depStep (addEdge (depsOf tasks) a b) x y →
      y ∈ nodesOf (addEdge (depsOf tasks) a b) a :=
    depStep_mem_nodesOf _ a
  have hspec := visit_spec (addEdge (depsOf tasks) a b)
    (nodesOf (addEdge (depsOf tasks) a b) a) hU
    ((nodesOf (addEdge (depsOf tasks) a b) a).card + 1) a ∅ ∅
    (root_mem_nodesOf _ a) (Finset.not_mem_empty a) (Finset.empty_subset _)
    (Finset.Subset.refl ∅)
    (fun s hs => absurd hs (Finset.not_mem_empty s))
    (fun v hv => absurd hv (by simp))
    (fun v hv => absurd hv (by simp))
    (by rw [Finset.sdiff_empty]; omega)
  constructor
  · intro htrue
    exact hspec.2.2.1 htrue
  · rintro ⟨w, hw1, hw2⟩
    by_contra hfalse
    have hf : (visit (addEdge (depsOf tasks) a b)
        ((nodesOf (addEdge (depsOf tasks) a b) a).card + 1) a ∅ ∅).1 = false := by
      cases hb2 : (visit (addEdge (depsOf tasks) a b)
          ((nodesOf (addEdge (depsOf tasks) a b) a).card + 1) a ∅ ∅).1
      · rfl
      · exact absurd hb2 hfalse
    obtain ⟨hc, hnc, ha⟩ := hspec.2.2.2 hf
    have hwb := reach_black _ _ ∅ hc a w hw1 ha
    exact hnc w hwb hw2

theorem neighborsOf_addEdge (deps : List (String × List String)) (a b x : String) :
    neighborsOf (addEdge deps a b) x =
      if x = a then
        (if b ∈ neighborsOf deps a then neighborsOf deps a
         else neighborsOf deps a ++ [b])
      else neighborsOf deps x := by
  unfold addEdge
  cases halook : alookup deps a with
  | none =>
    unfold neighborsOf
    rw [alookup_upsert]
    by_cases hx : x = a
    · rw [if_pos hx, if_pos hx, halook]
      simp
    · rw [if_neg hx, if_neg hx]
  | some l =>
    dsimp only
    by_cases hb : b ∈ l
    · have hb2 : b ∈ neighborsOf deps a := by
        unfold neighborsOf
        rw [halook]
        exact hb
      rw [if_pos hb]
      by_cases hx : x = a
      · rw [if_pos hx, if_pos hb2, hx]
      · rw [if_neg hx]
    · have hb2 : ¬ b ∈ neighborsOf deps a := by
        unfold neighborsOf
        rw [halook]
        exact hb
      rw [if_neg hb]
      unfold neighborsOf
      rw [alookup_upsert]
      by_cases hx : x = a
      · rw [if_pos hx, if_pos hx, halook]
        simp only [Option.getD_some]
        rw [if_neg hb]
      · rw [if_neg hx, if_neg hx]

theorem depStep_addEdge (deps : List (String × List String)) (a b x y : String) :
    depStep (addEdge deps a b) x y ↔
      depStep deps x y ∨ (x = a ∧ y = b) := by
  unfold depStep
  rw [neighborsOf_addEdge]
  by_cases hx : x = a
  · subst hx
    rw [if_pos rfl]
    by_cases hb : b ∈ neighborsOf deps x
    · rw [if_pos hb]
      constructor
      · exact Or.inl
      · rintro (h | ⟨_, rfl⟩)
        · exact h
        · exact hb
    · rw [if_neg hb, List.mem_append, List.mem_singleton]
      constructor
      · rintro (h | rfl)
        · exact Or.inl h
        · exact Or.inr ⟨rfl, rfl⟩
      · rintro (h | ⟨_, rfl⟩)
        · exact Or.inl h
        · exact Or.inr rfl
  · rw [if_neg hx]
    constructor
    · exact Or.inl
    · rintro (h | ⟨hxa, _⟩)
      · exact h
      · exact absurd hxa hx

theorem reach_addEdge (deps : List (String × List String)) (a b x y : String)
    (h : Relation.ReflTransGen (depStep (addEdge deps a b)) x y) :
    Relation.ReflTransGen (depStep deps) x y ∨
      (Relation.ReflTransGen (depStep deps) x a ∧
        Relation.ReflTransGen (depStep deps) b y) ∨
      Relation.ReflTransGen (depStep deps) b a := by
  induction h using Relation.ReflTransGen.head_induction_on with
  | refl => exact Or.inl Relation.ReflTransGen.refl
  | head hstep hrest ih =>
    rcases (depStep_addEdge deps a b _ _).1 hstep with h0 | ⟨rfl, rfl⟩
    · rcases ih with h1 | ⟨h1, h2⟩ | h1
      · exact Or.inl (Relation.ReflTransGen.head h0 h1)
      · exact Or.inr (Or.inl ⟨Relation.ReflTransGen.head h0 h1, h2⟩)
      · exact Or.inr (Or.inr h1)
    · rcases ih with h1 | ⟨h1, h2⟩ | h1
      · exact Or.inr (Or.inl ⟨Relation.ReflTransGen.refl, h1⟩)
      · exact Or.inr (Or.inr h1)
      · exact Or.inr (Or.inr h1)

theorem cycle_reach_addEdge (deps : List (String × List String)) (a b : String)
    (hacyc : ∀ v, ¬ Relation.TransGen (depStep deps) v v)
    (w : String)
    (hc : Relation.TransGen (depStep (addEdge deps a b)) w w) :
    Relation.ReflTransGen (depStep deps) b a := by
  rcases Relation.TransGen.head'_iff.1 hc with ⟨z, hstep, hrest⟩
  rcases (depStep_addEdge deps a b _ _).1 hstep with h0 | ⟨hw, hz⟩
  · rcases reach_addEdge deps a b _ _ hrest with h1 | ⟨h1, h2⟩ | h1
    · exact absurd (Relation.TransGen.head' h0 h1) (hacyc w)
    · exact Relation.ReflTransGen.trans (Relation.ReflTransGen.tail h2 h0) h1
    · exact h1
  · rw [hz, hw] at hrest
    rcases reach_addEdge deps a b b a hrest with h1 | ⟨h1, _⟩ | h1
    · exact h1
    · exact h1
    · exact h1

/-- C3 counterexample.  With an existing two-cycle C ↔ D in the collection,
`detect_cycle("A", "C")` returns true although A is not in C's transitive
dependency closure — the DFS reports any cycle reachable from the start
node, not only cycles created by the new edge. -/
theorem C3_counterexample :
    detectCycle "A" "C" [mkTask "C" ["D"], mkTask "D" ["C"]] = true ∧
    ¬ Relation.ReflTransGen
        (depStep (depsOf [mkTask "C" ["D"], mkTask "D" ["C"]])) "C" "A" := by
  constructor
  · decide
  · intro h
    have hclosed : ∀ x : String,
        Relation.ReflTransGen
          (depStep (depsOf [mkTask "C" ["D"], mkTask "D" ["C"]])) "C" x →
        x = "C" ∨ x = "D" := by
      intro x hx
      induction hx with
      | refl => exact Or.inl rfl
      | tail h1 h2 ih =>
        rcases ih with h3 | h3
        · rw [h3] at h2
          unfold depStep at h2
          rw [show neighborsOf (depsOf [mkTask "C" ["D"], mkTask "D" ["C"]]) "C"
              = ["D"] from rfl] at h2
          exact Or.inr (List.mem_singleton.1 h2)
        · rw [h3] at h2
          unfold depStep at h2
          rw [show neighborsOf (depsOf [mkTask "C" ["D"], mkTask "D" ["C"]]) "D"
              = ["C"] from rfl] at h2
          exact Or.inl (List.mem_singleton.1 h2)
    rcases hclosed "A" h with h1 | h1
    · exact absurd h1 (by decide)
    · exact absurd h1 (by decide)

/-- C3 amended.  Provided the existing dependency graph is acyclic — the
invariant `detect_cycle` itself maintains for graphs built through
`dep add` — `detect_cycle(a, b, allTasks)` returns true exactly when `b`'s
transitive dependency closure in the existing graph already contains `a`
(including the self-loop `a = b`), and false otherwise, also when `a` or
`b` has no existing edges.  (On collections whose graph already contains a
cycle reachable from `a`, the search may return true even when `a` is not
in `b`'s closure, as the counterexample shows.) -/
theorem C3_would_create_cycle (a b : String) (tasks : List Task)
    (hacyc : ∀ v, ¬ Relation.TransGen (depStep (depsOf tasks)) v v) :
    detectCycle a b tasks = true ↔
      Relation.ReflTransGen (depStep (depsOf tasks)) b a := by
  rw [detectCycle_iff_cycle]
  constructor
  · rintro ⟨w, _, hcyc⟩
    exact cycle_reach_addEdge (depsOf tasks) a b hacyc w hcyc
  · intro hba
    refine ⟨a, Relation.ReflTransGen.refl, ?_⟩
    have hstep : depStep (addEdge (depsOf tasks) a b) a b :=
      (depStep_addEdge (depsOf tasks) a b a b).2 (Or.inr ⟨rfl, rfl⟩)
    have hreach : Relation.ReflTransGen (depStep (addEdge (depsOf tasks) a b)) b a :=
      Relation.ReflTransGen.mono
        (fun x y h => (depStep_addEdge (depsOf tasks) a b x y).2 (Or.inl h)) hba
    exact Relation.TransGen.head' hstep hreach

/-- C3 witness: on the empty (acyclic) collection the self-loop query is
reported as a cycle. -/
theorem C3_would_create_cycle_witness :
    detectCycle "x" "x" [] = true := by
  have hacyc : ∀ v, ¬ Relation.TransGen (depStep (depsOf ([] : List Task))) v v := by
    intro v hv
    rcases Relation.TransGen.head'_iff.1 hv with ⟨w, hw, _⟩
    simp [depStep, neighborsOf, depsOf, alookup] at hw
  exact (C3_would_create_cycle "x" "x" [] hacyc).2 Relation.ReflTransGen.refl

theorem strLeB_total : ∀ as bs, strLeB as bs = true ∨ strLeB bs as = true := by
  intro as
  induction as with
  | nil => intro bs; exact Or.inl rfl
  | cons a as ih =>
    intro bs
    cases bs with
    | nil => exact Or.inr rfl
    | cons b bs =>
      rcases Nat.lt_trichotomy a.toNat b.toNat with h | h | h
      · left; simp [strLeB, h]
      · rcases ih bs with h2 | h2
        · left; simp [strLeB, h, h2, Nat.lt_irrefl]
        · right; simp [strLeB, h.symm, h2, Nat.lt_irrefl]
      · right; simp [strLeB, h]

theorem strLeB_trans :
    ∀ as bs cs, strLeB as bs = true → strLeB bs cs = true →
      strLeB as cs = true := by
  intro as
  induction as with
  | nil => intro bs cs _ _; rfl
  | cons a as ih =>
    intro bs cs h1 h2
    cases bs with
    | nil => simp [strLeB] at h1
    | cons b bs =>
      cases cs with
      | nil => simp [strLeB] at h2
      | cons c cs =>
        simp only [strLeB] at h1 h2 ⊢
        by_cases hab : a.toNat < b.toNat <;> by_cases hbc : b.toNat < c.toNat
        · simp [Nat.lt_trans hab hbc]
        · rw [if_neg hbc] at h2
          by_cases hbc2 : b.toNat = c.toNat
          · simp [show a.toNat < c.toNat from hbc2 ▸ hab]
          · rw [if_neg hbc2] at h2; exact absurd h2 (by simp)
        · rw [if_neg hab] at h1
          by_cases hab2 : a.toNat = b.toNat
          · simp [show a.toNat < c.toNat from hab2 ▸ hbc]
          · rw [if_neg hab2] at h1; exact absurd h1 (by simp)
        · rw [if_neg hab] at h1
          rw [if_neg hbc] at h2
          by_cases hab2 : a.toNat = b.toNat
          · by_cases hbc2 : b.toNat = c.toNat
            · rw [if_pos hab2] at h1
              rw [if_pos hbc2] at h2
              have hac : a.toNat = c.toNat := hab2.trans hbc2
              rw [if_neg (by omega : ¬ a.toNat < c.toNat), if_pos hac]
              exact ih bs cs h1 h2
            · rw [if_neg hbc2] at h2; exact absurd h2 (by simp)
          · rw [if_neg hab2] at h1; exact absurd h1 (by simp)

theorem strLeB_antisymm :
    ∀ as bs, strLeB as bs = true → strLeB bs as = true → as = bs := by
  intro as
  induction as with
  | nil =>
    intro bs h1 h2
    cases bs with
    | nil => rfl
    | cons b bs => simp [strLeB] at h2
  | cons a as ih =>
    intro bs h1 h2
    cases bs with
    | nil => simp [strLeB] at h1
    | cons b bs =>
      simp only [strLeB] at h1 h2
      by_cases hab : a.toNat < b.toNat
      · rw [if_neg (by omega : ¬ b.toNat < a.toNat),
          if_neg (by omega : ¬ b.toNat = a.toNat)] at h2
        exact absurd h2 (by simp)
      · rw [if_neg hab] at h1
        by_cases hab2 : a.toNat = b.toNat
        · rw [if_pos hab2] at h1
          rw [if_neg (by omega : ¬ b.toNat < a.toNat), if_pos hab2.symm] at h2
          have hchar : a = b := by
            rw [← Char.ofNat_toNat a, ← Char.ofNat_toNat b, hab2]
          rw [hchar, ih bs h1 h2]
        · rw [if_neg hab2] at h1; exact absurd h1 (by simp)

theorem mem_upsert {α : Type} :
    ∀ (m : List (String × α)) (k : String) (v : α) (p : String × α),
      p ∈ upsert m k v → p ∈ m ∨ p = (k, v) := by
  intro m
  induction m with
  | nil =>
    intro k v p hp
    simp only [upsert, List.mem_singleton] at hp
    exact Or.inr hp
  | cons q m ih =>
    intro k v p hp
    obtain ⟨a, b⟩ := q
    by_cases h : k = a
    · rw [upsert, if_pos h] at hp
      rcases List.mem_cons.1 hp with h1 | h1
      · right; rw [h1, h]
      · left; exact List.mem_cons_of_mem _ h1
    · rw [upsert, if_neg h] at hp
      rcases List.mem_cons.1 hp with h1 | h1
      · left; rw [h1]; exact List.mem_cons_self _ _
      · rcases ih k v p h1 with h2 | h2
        · left; exact List.mem_cons_of_mem _ h2
        · right; exact h2

theorem foldl_upsert_fst :
    ∀ (rs : List Task) (m : List (String × Task)),
      (∀ p ∈ m, p.1 = p.2.id) →
      ∀ p ∈ rs.foldl (fun m t => upsert m t.id t) m, p.1 = p.2.id := by
  intro rs
  induction rs with
  | nil => intro m hm; exact hm
  | cons t rs ih =>
    intro m hm
    apply ih
    intro p hp
    rcases mem_upsert m t.id t p hp with h | h
    · exact hm p h
    · rw [h]

theorem alookup_eq_none {α : Type} :
    ∀ (m : List (String × α)) (k : String),
      alookup m k = none ↔ k ∉ m.map Prod.fst := by
  intro m k
  induction m with
  | nil => simp [alookup]
  | cons q m ih =>
    obtain ⟨a, b⟩ := q
    by_cases h : k = a
    · simp [alookup, h]
    · simp [alookup, h, ih]

theorem map_fst_upsert {α : Type} :
    ∀ (m : List (String × α)) (k : String) (v : α),
      (upsert m k v).map Prod.fst =
        if (alookup m k).isSome then m.map Prod.fst
        else m.map Prod.fst ++ [k] := by
  intro m
  induction m with
  | nil => intro k v; simp [upsert, alookup]
  | cons q m ih =>
    intro k v
    obtain ⟨a, b⟩ := q
    by_cases h : k = a
    · simp [upsert, h, alookup]
    · simp only [upsert, if_neg h, alookup, List.map_cons, ih]
      split_ifs <;> simp

theorem nodup_keys_foldl :
    ∀ (rs : List Task) (m : List (String × Task)),
      (m.map Prod.fst).Nodup →
      ((rs.foldl (fun m t => upsert m t.id t) m).map Prod.fst).Nodup := by
  intro rs
  induction rs with
  | nil => intro m h; exact h
  | cons t rs ih =>
    intro m hm
    apply ih
    rw [map_fst_upsert]
    by_cases h : (alookup m t.id).isSome
    · rw [if_pos h]; exact hm
    · rw [if_neg h]
      refine List.Nodup.append hm (List.nodup_singleton _) ?_
      intro a ha hb
      simp only [List.mem_singleton] at hb
      subst hb
      have hnone : alookup m t.id = none := by
        cases hopt : alookup m t.id
        · rfl
        · rw [hopt] at h; simp at h
      exact (alookup_eq_none m t.id).1 hnone ha

theorem upsert_append {α : Type} :
    ∀ (m : List (String × α)) (k : String) (v : α),
      alookup m k = none → upsert m k v = m ++ [(k, v)] := by
  intro m
  induction m with
  | nil => intro k v _; rfl
  | cons q m ih =>
    intro k v h
    obtain ⟨a, b⟩ := q
    by_cases hk : k = a
    · simp [alookup, hk] at h
    · rw [upsert, if_neg hk, ih k v (by simpa [alookup, hk] using h)]
      simp

theorem foldl_upsert_of_nodup :
    ∀ (rs : List Task) (m : List (String × Task)),
      (∀ t ∈ rs, alookup m t.id = none) →
      ((rs.map fun t => t.id).Nodup) →
      rs.foldl (fun m t => upsert m t.id t) m =
        m ++ (rs.map fun t => (t.id, t)) := by
  intro rs
  induction rs with
  | nil => intro m _ _; simp
  | cons t rs ih =>
    intro m hnone hnd
    simp only [List.foldl_cons]
    rw [List.map_cons] at hnd
    have hndc := List.nodup_cons.1 hnd
    have hfor : ∀ t' ∈ rs, alookup (upsert m t.id t) t'.id = none := by
      intro t' ht'
      rw [alookup_upsert]
      have hne : t'.id ≠ t.id := by
        intro hcon
        exact hndc.1 (hcon ▸ List.mem_map_of_mem _ ht')
      rw [if_neg hne]
      exact hnone t' (List.mem_cons_of_mem _ ht')
    rw [ih (upsert m t.id t) hfor hndc.2,
      upsert_append m t.id t (hnone t (List.mem_cons_self _ _))]
    simp

theorem alookup_eq_some_iff :
    ∀ (m : List (String × Task)), (m.map Prod.fst).Nodup →
      ∀ (k : String) (v : Task), alookup m k = some v ↔ (k, v) ∈ m := by
  intro m
  induction m with
  | nil => intro _ k v; simp [alookup]
  | cons q m ih =>
    intro hnd k v
    obtain ⟨a, b⟩ := q
    rw [List.map_cons] at hnd
    have hnd' := List.nodup_cons.1 hnd
    by_cases hk : k = a
    · subst hk
      have hlook : alookup ((k, b) :: m) k = some b := by simp [alookup]
      rw [hlook, List.mem_cons]
      constructor
      · intro h
        left
        rw [Option.some.inj h]
      · rintro (h | h)
        · exact congrArg some (congrArg Prod.snd h).symm
        · exact absurd (by simpa using List.mem_map_of_mem Prod.fst h) hnd'.1
    · simp only [alookup, if_neg hk, List.mem_cons]
      rw [ih hnd'.2 k v]
      constructor
      · exact Or.inr
      · rintro (h | h)
        · exact absurd (congrArg Prod.fst h) hk
        · exact h

theorem mem_of_fst_invariant :
    ∀ (m : List (String × Task)), (∀ p ∈ m, p.1 = p.2.id) →
      ∀ (k : String) (v : Task),
        (k, v) ∈ m ↔ (v ∈ m.map Prod.snd ∧ k = v.id) := by
  intro m hm k v
  constructor
  · intro h
    exact ⟨List.mem_map_of_mem _ h, hm (k, v) h⟩
  · rintro ⟨hv, hk⟩
    rcases List.mem_map.1 hv with ⟨p, hp, hps⟩
    obtain ⟨p1, p2⟩ := p
    have h1 : p1 = p2.id := hm (p1, p2) hp
    have h2 : p2 = v := hps
    have : (p1, p2) = (k, v) := by rw [h2, h1, h2, hk]
    rw [← this]
    exact hp

theorem option_eq_of_some_iff {α : Type} (a b : Option α)
    (h : ∀ x, a = some x ↔ b = some x) : a = b := by
  cases a with
  | none =>
    cases b with
    | none => rfl
    | some v => exact absurd ((h v).2 rfl) (by simp)
  | some v => exact ((h v).1 rfl).symm

theorem le_length_foldl_upsert :
    ∀ (rs : List Task) (m : List (String × Task)),
      m.length ≤ (rs.foldl (fun m t => upsert m t.id t) m).length := by
  intro rs
  induction rs with
  | nil => intro m; exact le_refl _
  | cons t rs ih =>
    intro m
    have h1 : m.length ≤ (upsert m t.id t).length := by
      rw [length_upsert]; split_ifs <;> omega
    exact le_trans h1 (ih _)

theorem records_map_record : ∀ ts : List Task, records (ts.map Line.record) = ts := by
  intro ts
  induction ts with
  | nil => rfl
  | cons t ts ih =>
    simp only [List.map_cons]
    rw [show records (Line.record t :: ts.map Line.record)
        = t :: records (ts.map Line.record) from rfl, ih]

theorem records_eq_nil_of_values_nil (file : List Line)
    (h : loadValues file = []) : records file = [] := by
  cases hr : records file with
  | nil => rfl
  | cons t rs =>
    exfalso
    have hlv : loadValues file = (loadPairs (records file)).map (fun p => p.2) := rfl
    have hlp : loadPairs (records file) = [] :=
      List.map_eq_nil.1 (by rw [← hlv, h])
    rw [hr] at hlp
    have h1 : 1 ≤ (loadPairs (t :: rs)).length := by
      unfold loadPairs
      simp only [List.foldl_cons]
      calc 1 = (upsert ([] : List (String × Task)) t.id t).length := rfl
        _ ≤ _ := le_length_foldl_upsert rs _
    rw [hlp] at h1
    simp at h1

theorem removedOf_zero_of_nodup (file : List Line)
    (h : ((records file).map fun t => t.id).Nodup) : removedOf file = 0 := by
  have heq := foldl_upsert_of_nodup (records file) []
    (by intro t _; rfl) h
  have hlen : (loadValues file).length = (records file).length := by
    have : loadValues file = (loadPairs (records file)).map (fun p => p.2) := rfl
    rw [this]
    unfold loadPairs
    rw [heq]
    simp
  unfold removedOf
  omega

theorem runOps_none :
    ∀ (ops : List Op) (st : FS), runOps st ops none = (ops.foldl applyOp st, false) := by
  intro ops
  induction ops with
  | nil => intro st; rfl
  | cons op ops ih =>
    intro st
    simp only [runOps, List.foldl_cons]
    exact ih (applyOp st op)

theorem foldl_applyOp_writes :
    ∀ (ts : List Task) (lg : List Line) (c : List Task),
      (ts.map Op.writeRec).foldl applyOp { log := lg, temp := some c } =
        { log := lg, temp := some (c ++ ts) } := by
  intro ts
  induction ts with
  | nil => intro lg c; simp
  | cons t ts ih =>
    intro lg c
    simp only [List.map_cons, List.foldl_cons]
    rw [show applyOp { log := lg, temp := some c } (Op.writeRec t)
        = { log := lg, temp := some (c ++ [t]) } from rfl, ih]
    simp

theorem cleanOps_run (file : List Line) :
    (cleanOps file).foldl applyOp { log := file, temp := some [] } =
      { log := (sortById (loadValues file)).map Line.record, temp := none } := by
  unfold cleanOps
  rw [List.foldl_append, foldl_applyOp_writes]
  rfl

theorem applyOp_log (st : FS) (op : Op) (h : op ≠ Op.rename) :
    (applyOp st op).log = st.log := by
  cases op with
  | writeRec t => rfl
  | flush => rfl
  | fsync => rfl
  | rename => exact absurd rfl h

theorem runOps_fail_prefix :
    ∀ (k : Nat) (ops : List Op) (st : FS), k < ops.length →
      (∀ op ∈ ops.take k, op ≠ Op.rename) →
      (runOps st ops (some k)).2 = true ∧
        (runOps st ops (some k)).1.log = st.log := by
  intro k
  induction k with
  | zero =>
    intro ops st hk _
    cases ops with
    | nil => simp at hk
    | cons op ops => exact ⟨rfl, rfl⟩
  | succ k ih =>
    intro ops st hk hpre
    cases ops with
    | nil => simp at hk
    | cons op ops =>
      have hop : op ≠ Op.rename := by
        apply hpre op
        rw [List.take_succ_cons]
        exact List.mem_cons_self _ _
      have h2 := ih ops (applyOp st op) (by simpa using hk)
        (fun o ho => hpre o (by rw [List.take_succ_cons]; exact List.mem_cons_of_mem _ ho))
      refine ⟨h2.1, ?_⟩
      show (runOps (applyOp st op) ops (some k)).1.log = st.log
      rw [h2.2, applyOp_log st op hop]

theorem cleanOps_take_no_rename (file : List Line) (k : Nat)
    (hk : k ≤ (loadValues file).length + 2) :
    ∀ op ∈ (cleanOps file).take k, op ≠ Op.rename := by
  intro op hop
  have hsplit : cleanOps file =
      ((sortById (loadValues file)).map Op.writeRec ++ [Op.flush, Op.fsync]) ++
        [Op.rename] := by
    simp [cleanOps]
  have hlen : ((sortById (loadValues file)).map Op.writeRec ++
      [Op.flush, Op.fsync]).length = (loadValues file).length + 2 := by
    simp [sortById, List.length_insertionSort]
  rw [hsplit, List.take_append_of_le_length (by omega)] at hop
  have hmem := List.take_subset _ _ hop
  rcases List.mem_append.1 hmem with hmem | hmem
  · rcases List.mem_map.1 hmem with ⟨t, _, ht⟩
    rw [← ht]
    intro hcon
    cases hcon
  · simp only [List.mem_cons, List.not_mem_nil, or_false] at hmem
    rcases hmem with h | h <;> (rw [h]; intro hcon; cases hcon)

/-- C5.  Compaction is idempotent and sound: on a log whose records carry
pairwise-distinct ids it reports zero removed lines and leaves the content
untouched; after any successful compaction the resulting log loads with
`totalLines = uniqueCount` and the same id-to-task mapping as before; and a
real rewrite produces exactly one record per live id, sorted ascending by
id. -/
theorem C5_compaction (file : List Line) :
    (((records file).map fun t => t.id).Nodup →
      cleanLog file none = ({ log := file, temp := none }, false) ∧
        removedOf file = 0) ∧
    ((records (cleanLog file none).1.log).length =
        (loadPairs (records (cleanLog file none).1.log)).length ∧
      ∀ k, alookup (loadPairs (records (cleanLog file none).1.log)) k =
        alookup (loadPairs (records file)) k) ∧
    ((loadValues file ≠ [] ∧ removedOf file ≠ 0) →
      records (cleanLog file none).1.log = sortById (loadValues file) ∧
      List.Sorted idLe (records (cleanLog file none).1.log) ∧
      ((records (cleanLog file none).1.log).map fun t => t.id).Nodup) := by
  have hP1 : ((records file).map fun t => t.id).Nodup →
      cleanLog file none = ({ log := file, temp := none }, false) ∧
        removedOf file = 0 := by
    intro hnd
    have hrm := removedOf_zero_of_nodup file hnd
    refine ⟨?_, hrm⟩
    unfold cleanLog
    by_cases hE : (loadValues file).isEmpty = true
    · rw [if_pos hE]
    · rw [if_neg hE, if_pos hrm]
  by_cases hE : (loadValues file).isEmpty = true
  · have hclean : cleanLog file none = ({ log := file, temp := none }, false) := by
      unfold cleanLog
      rw [if_pos hE]
    have hrec : records file = [] :=
      records_eq_nil_of_values_nil file (List.isEmpty_iff.1 hE)
    refine ⟨hP1, ⟨?_, fun k => by rw [hclean]⟩, ?_⟩
    · rw [hclean]
      show (records file).length = (loadPairs (records file)).length
      rw [hrec]
      rfl
    · rintro ⟨hne, _⟩
      exact absurd (List.isEmpty_iff.1 hE) hne
  · by_cases hR : removedOf file = 0
    · have hclean : cleanLog file none = ({ log := file, temp := none }, false) := by
        unfold cleanLog
        rw [if_neg hE, if_pos hR]
      refine ⟨hP1, ⟨?_, fun k => by rw [hclean]⟩, ?_⟩
      · rw [hclean]
        show (records file).length = (loadPairs (records file)).length
        have hlen := loadPairs_length (records file)
        have hv : (loadValues file).length = (loadPairs (records file)).length := by
          show ((loadPairs (records file)).map fun p => p.2).length = _
          simp
        unfold removedOf at hR
        omega
      · rintro ⟨_, hnz⟩
        exact absurd hR hnz
    · have hres : runOps { log := file, temp := some [] } (cleanOps file) none
          = ((cleanOps file).foldl applyOp { log := file, temp := some [] }, false) :=
        runOps_none _ _
      have hclean : cleanLog file none =
          ({ log := (sortById (loadValues file)).map Line.record, temp := none },
            false) := by
        unfold cleanLog
        rw [if_neg hE, if_neg hR, hres, cleanOps_run]
        simp
      have hpairinv : ∀ p ∈ loadPairs (records file), p.1 = p.2.id :=
        foldl_upsert_fst (records file) [] (by simp)
      have hnodupkeys : ((loadPairs (records file)).map Prod.fst).Nodup :=
        nodup_keys_foldl (records file) [] (by simp)
      have hlv : loadValues file = (loadPairs (records file)).map Prod.snd := rfl
      have hvalsid : (loadValues file).map (fun t => t.id) =
          (loadPairs (records file)).map Prod.fst := by
        rw [hlv, List.map_map]
        exact List.map_congr_left (fun p hp => (hpairinv p hp).symm)
      have hvnodup : ((loadValues file).map fun t => t.id).Nodup := by
        rw [hvalsid]
        exact hnodupkeys
      have hperm : (sortById (loadValues file)).Perm (loadValues file) :=
        List.perm_insertionSort idLe _
      have hsnodup : ((sortById (loadValues file)).map fun t => t.id).Nodup :=
        (hperm.map fun t => t.id).nodup_iff.2 hvnodup
      have hrecnew : records (cleanLog file none).1.log = sortById (loadValues file) := by
        rw [hclean]
        exact records_map_record _
      have hpairs_s : loadPairs (sortById (loadValues file)) =
          (sortById (loadValues file)).map fun t => (t.id, t) := by
        unfold loadPairs
        rw [foldl_upsert_of_nodup _ [] (fun t _ => rfl) hsnodup]
        simp
      refine ⟨hP1, ⟨?_, ?_⟩, fun _ => ⟨hrecnew, ?_, ?_⟩⟩
      · rw [hrecnew, hpairs_s]
        simp
      · intro k
        rw [hrecnew, hpairs_s]
        apply option_eq_of_some_iff
        intro v
        have hkeys_s : (((sortById (loadValues file)).map fun t => (t.id, t)).map
            Prod.fst).Nodup := by
          rw [List.map_map]
          exact hsnodup
        rw [alookup_eq_some_iff _ hkeys_s, alookup_eq_some_iff _ hnodupkeys]
        have hinv_s : ∀ p ∈ (sortById (loadValues file)).map fun t => (t.id, t),
            p.1 = p.2.id := by
          intro p hp
          rcases List.mem_map.1 hp with ⟨t, _, ht⟩
          rw [← ht]
        rw [mem_of_fst_invariant _ hinv_s, mem_of_fst_invariant _ hpairinv]
        have hsnd_s : ((sortById (loadValues file)).map fun t => (t.id, t)).map
            Prod.snd = sortById (loadValues file) := by
          rw [List.map_map]
          exact List.map_id _
        rw [hsnd_s]
        have hmem : v ∈ sortById (loadValues file) ↔
            v ∈ (loadPairs (records file)).map Prod.snd := by
          rw [← hlv]
          exact hperm.mem_iff
        rw [hmem]
      · rw [hrecnew]
        haveI : IsTotal Task idLe := ⟨fun a b => strLeB_total a.id.data b.id.data⟩
        haveI : IsTrans Task idLe := ⟨fun a b c h1 h2 => strLeB_trans _ _ _ h1 h2⟩
        exact List.sorted_insertionSort idLe _
      · rw [hrecnew]
        exact hsnodup

/-- C5 witness: a one-record log is reported already clean and untouched;
a log with a duplicated id rewrites to the single surviving record. -/
theorem C5_compaction_witness :
    (cleanLog [Line.record { id := "a", title := "x", created_at := "0", updated_at := "0" }] none =
      ({ log := [Line.record { id := "a", title := "x", created_at := "0", updated_at := "0" }],
         temp := none }, false)) ∧
    records (cleanLog
        [Line.record { id := "a", title := "x", created_at := "0", updated_at := "0" },
         Line.record { id := "a", title := "y", created_at := "0", updated_at := "0" }]
        none).1.log =
      sortById (loadValues
        [Line.record { id := "a", title := "x", created_at := "0", updated_at := "0" },
         Line.record { id := "a", title := "y", created_at := "0", updated_at := "0" }]) :=
  ⟨((C5_compaction
      [Line.record { id := "a", title := "x", created_at := "0", updated_at := "0" }]).1
      (by decide)).1,
    ((C5_compaction
      [Line.record { id := "a", title := "x", created_at := "0", updated_at := "0" },
       Line.record { id := "a", title := "y", created_at := "0", updated_at := "0" }]).2.2
      ⟨by decide, by decide⟩).1⟩

/-- C6.  If compaction fails at any operation strictly before the final
atomic rename — any of the record writes, the flush, or the fsync — the
error is surfaced, the temporary file is removed, and the log file content
is exactly what it was before `clean_log` ran. -/
theorem C6_clean_failure_atomic (file : List Line) (k : Nat)
    (h1 : loadValues file ≠ [])
    (h2 : removedOf file ≠ 0)
    (hk : k < (loadValues file).length + 2) :
    (cleanLog file (some k)).1.log = file ∧
    (cleanLog file (some k)).1.temp = none ∧
    (cleanLog file (some k)).2 = true := by
  have hne : ¬ ((loadValues file).isEmpty = true) := by
    simpa [List.isEmpty_iff] using h1
  have hops : k < (cleanOps file).length := by
    have : (cleanOps file).length = (loadValues file).length + 3 := by
      simp [cleanOps, sortById, List.length_insertionSort]
    omega
  have hpre := cleanOps_take_no_rename file k (by omega)
  have hrun := runOps_fail_prefix k (cleanOps file)
    { log := file, temp := some [] } hops hpre
  have hcl : cleanLog file (some k) =
      ({ (runOps { log := file, temp := some [] } (cleanOps file) (some k)).1 with
          temp := none }, true) := by
    unfold cleanLog
    rw [if_neg hne, if_neg h2]
    simp only [hrun.1, if_true]
  rw [hcl]
  exact ⟨hrun.2, rfl, rfl⟩

/-- C6 witness: a two-record log with a duplicated id, failing at the very
first temp-file write, surfaces the error with the original log intact and
the temp file gone. -/
theorem C6_clean_failure_atomic_witness :
    (cleanLog
        [Line.record { id := "a", title := "x", created_at := "0", updated_at := "0" },
         Line.record { id := "a", title := "y", created_at := "0", updated_at := "0" }]
        (some 0)).1.log =
      [Line.record { id := "a", title := "x", created_at := "0", updated_at := "0" },
       Line.record { id := "a", title := "y", created_at := "0", updated_at := "0" }] ∧
    (cleanLog
        [Line.record { id := "a", title := "x", created_at := "0", updated_at := "0" },
         Line.record { id := "a", title := "y", created_at := "0", updated_at := "0" }]
        (some 0)).1.temp = none ∧
    (cleanLog
        [Line.record { id := "a", title := "x", created_at := "0", updated_at := "0" },
         Line.record { id := "a", title := "y", created_at := "0", updated_at := "0" }]
        (some 0)).2 = true :=
  C6_clean_failure_atomic
    [Line.record { id := "a", title := "x", created_at := "0", updated_at := "0" },
     Line.record { id := "a", title := "y", created_at := "0", updated_at := "0" }]
    0 (by decide) (by decide) (by decide)

theorem keyLe_total (t u : Task) : keyLe t u ∨ keyLe u t := by
  rcases lt_trichotomy t.priority u.priority with h | h | h
  · exact Or.inl (Or.inl h)
  · rcases strLeB_total t.id.data u.id.data with h2 | h2
    · exact Or.inl (Or.inr ⟨h, h2⟩)
    · exact Or.inr (Or.inr ⟨h.symm, h2⟩)
  · exact Or.inr (Or.inl h)

theorem keyLe_trans (a b c : Task) (h1 : keyLe a b) (h2 : keyLe b c) :
    keyLe a c := by
  rcases h1 with h1 | ⟨h1e, h1s⟩ <;> rcases h2 with h2 | ⟨h2e, h2s⟩
  · exact Or.inl (lt_trans h1 h2)
  · exact Or.inl (h2e ▸ h1)
  · exact Or.inl (h1e ▸ h2)
  · exact Or.inr ⟨h1e.trans h2e, strLeB_trans _ _ _ h1s h2s⟩

/-- C9.  The ordering shared by the list and ready views sorts ascending by
priority with ties broken by ascending lexical id: `sortTasks` permutes its
input into a `keyLe`-sorted list, `keyLe` is total, two tasks with distinct
ids never compare equal (so the order is deterministic on unique ids), the
ready view uses this very sort, and the (priority, id) example
(2,"tl-5"), (0,"tl-9"), (0,"tl-2") sorts to ["tl-2","tl-9","tl-5"]. -/
theorem C9_sort_ordering :
    (∀ ts : List Task, (sortTasks ts).Perm ts ∧ List.Sorted keyLe (sortTasks ts)) ∧
    (∀ t u : Task, keyLe t u ∨ keyLe u t) ∧
    (∀ t u : Task, t.id ≠ u.id → ¬ (keyLe t u ∧ keyLe u t)) ∧
    (∀ ts : List Task, readyTasks ts = sortTasks (ts.filter (isReady ts))) ∧
    (sortTasks
        [{ id := "tl-5", title := "a", created_at := "0", updated_at := "0",
           priority := 2 },
         { id := "tl-9", title := "b", created_at := "0", updated_at := "0",
           priority := 0 },
         { id := "tl-2", title := "c", created_at := "0", updated_at := "0",
           priority := 0 }]).map (fun t => t.id) = ["tl-2", "tl-9", "tl-5"] := by
  refine ⟨fun ts => ⟨List.perm_insertionSort keyLe ts, ?_⟩, keyLe_total, ?_, fun ts => rfl, ?_⟩
  · haveI : IsTotal Task keyLe := ⟨keyLe_total⟩
    haveI : IsTrans Task keyLe := ⟨keyLe_trans⟩
    exact List.sorted_insertionSort keyLe ts
  · intro t u hne hboth
    obtain ⟨h1, h2⟩ := hboth
    rcases h1 with h1 | ⟨h1e, h1s⟩ <;> rcases h2 with h2 | ⟨h2e, h2s⟩
    · exact absurd (lt_trans h1 h2) (lt_irrefl _)
    · exact absurd h1 (h2e ▸ lt_irrefl _)
    · exact absurd h2 (h1e ▸ lt_irrefl _)
    · have hdata : t.id.data = u.id.data := strLeB_antisymm _ _ h1s h2s
      exact hne (congrArg String.mk hdata)
  · decide

/-- C9 witness: two concrete distinct-id tasks of equal priority do not
compare equal in both directions. -/
theorem C9_sort_ordering_witness :
    ¬ (keyLe
        { id := "tl-a", title := "a", created_at := "0", updated_at := "0" }
        { id := "tl-b", title := "b", created_at := "0", updated_at := "0" } ∧
       keyLe
        { id := "tl-b", title := "b", created_at := "0", updated_at := "0" }
        { id := "tl-a", title := "a", created_at := "0", updated_at := "0" }) :=
  C9_sort_ordering.2.2.1 _ _ (by decide)

theorem mem_closedIds (ts : List Task) (d : String) :
    d ∈ closedIds ts ↔ ∃ u, u ∈ ts ∧ u.id = d ∧ u.status = "closed" := by
  simp only [closedIds, List.mem_map, List.mem_filter, decide_eq_true_eq]
  constructor
  · rintro ⟨u, ⟨hu, hs⟩, hid⟩
    exact ⟨u, hu, hid, hs⟩
  · rintro ⟨u, hu, hid, hs⟩
    exact ⟨u, ⟨hu, hs⟩, hid⟩

/-- C4.  A task is in the ready view iff it is in the collection, its status
is `open`, and every id in its dependencies is the id of some task of the
collection whose status is `closed`; a dependency id with no matching task
fails the condition (never vacuously satisfied). -/
theorem C4_ready_membership (ts : List Task) (t : Task) :
    t ∈ readyTasks ts ↔
      t ∈ ts ∧ t.status = "open" ∧
        ∀ d ∈ t.dependencies, ∃ u, u ∈ ts ∧ u.id = d ∧ u.status = "closed" := by
  unfold readyTasks sortTasks
  rw [List.mem_insertionSort, List.mem_filter]
  simp only [isReady, decide_eq_true_eq, mem_closedIds]

/-- C4 witness: an open task depending on the absent id "tl-999" is not
ready. -/
theorem C4_ready_membership_witness :
    { id := "tl-001", title := "x", created_at := "0", updated_at := "0",
      dependencies := ["tl-999"] } ∉
      readyTasks
        [{ id := "tl-001", title := "x", created_at := "0", updated_at := "0",
           dependencies := ["tl-999"] }] := by
  intro hmem
  have h := (C4_ready_membership
      [{ id := "tl-001", title := "x", created_at := "0", updated_at := "0",
         dependencies := ["tl-999"] }]
      { id := "tl-001", title := "x", created_at := "0", updated_at := "0",
        dependencies := ["tl-999"] }).1 hmem
  rcases h.2.2 "tl-999" (by simp) with ⟨u, hu, hid, _⟩
  simp only [List.mem_singleton] at hu
  rw [hu] at hid
  exact absurd hid (by decide)

/-- C2 witness: a concretely closed task keeps `closed_at = "9"` through a
later re-close and a no-status update. -/
theorem C2_closed_at_witness :
    (updateFields
        { id := "a", title := "t", created_at := "0", updated_at := "0" }
        { status := some "closed" } "4").closed_at = some "4" ∧
    (foldUpdates
        { id := "a", title := "t", created_at := "0", updated_at := "0",
          status := "closed", closed_at := some "9" }
        [({ status := some "closed" }, "5"), ({ notes := some "n" }, "6")]).closed_at
      = some "9" := by
  constructor
  · exact (C2_closed_at
      { id := "a", title := "t", created_at := "0", updated_at := "0" }
      { status := some "closed" } "4" []).1 rfl (by decide)
  · exact (C2_closed_at
      { id := "a", title := "t", created_at := "0", updated_at := "0",
        status := "closed", closed_at := some "9" }
      { } "0"
      [({ status := some "closed" }, "5"), ({ notes := some "n" }, "6")]).2
      rfl (by decide)

end Ticketlog
